import Mathlib

/-!
Shallow embedding of `src/ai_article_scanner.py` (a daily AI-article
aggregation pipeline) together with theorems checking its natural-language
specification.  Python strings are modelled as `List Char`, Python
`str.replace` / `str.split` / `str.strip` by explicit recursive functions with
the same leftmost, non-overlapping semantics, exceptions of external calls by
`Except Unit` values passed in as oracles, and the persisted JSON store by an
inductive JSON value type.
-/

namespace AiArticleScanner

/-- Python strings are modelled as lists of characters. -/
abbrev Str := List Char

/-! ## Configuration (the `CONFIG` dict of the source) -/

/-- `CONFIG["scan_depth"]`. -/
def scan_depth : Nat := 25

/-- `CONFIG["max_email_items"]`. -/
def max_email_items : Nat := 12

/-- `CONFIG["expert_ai_keywords"]`. -/
def expert_ai_keywords : List Str :=
  ["ai ", "artificial intelligence", "llm", "gpt", "generative",
   "machine learning", "neural", "algorithm", "robot", "agent",
   "automation", "copilot", "claude", "gemini", "transformer",
   "compute", "model", "turing"].map String.toList

/-- `CONFIG["reddit_tech_subs"]`. -/
def reddit_tech_subs : List Str :=
  ["ArtificialIntelligence", "MachineLearning", "ChatGPT", "OpenAI"].map String.toList

/-- `CONFIG["reddit_general_subs"]`. -/
def reddit_general_subs : List Str :=
  ["marketing", "advertising", "AgencyLife"].map String.toList

/-- `CONFIG["positive_keywords"]` (the allow-list of the classifier). -/
def positive_keywords : List Str :=
  ["communication", "agency", "marketing", "advertising", "brand",
   "behavior", "psycholog", "persua", "nudge", "decision",
   "user experience", "ux", "interface", "design", "chatbot",
   "conversational", "narrative", "social media", "adoption",
   "consumer", "trust", "ethics", "generative"].map String.toList

/-- `CONFIG["negative_keywords"]` (the block-list of the classifier). -/
def negative_keywords : List Str :=
  ["radiology", "tumor", "cancer", "surgery", "surgical",
   "prognosis", "diagnosis", "diagnostic", "clinical trial",
   "genomic", "protein", "molecular", "scan", "mri", "ct image",
   "reinforcement learning", "neural network architecture",
   "gradient descent", "logit", "quantization", "bit-flip"].map String.toList

/-- One entry of `CONFIG["expert_feeds"]`: a name, a feed URL and the
`filter` flag deciding whether the coarse AI-keyword gate applies. -/
structure ExpertFeed where
  name : Str
  url : Str
  filtered : Bool
deriving DecidableEq, Repr

/-- `CONFIG["expert_feeds"]`. -/
def expert_feeds : List ExpertFeed :=
  [⟨"Ethan Mollick".toList, "https://www.oneusefulthing.org/feed".toList, false⟩,
   ⟨"Scott Galloway".toList, "https://www.profgalloway.com/feed/".toList, true⟩,
   ⟨"Azeem Azhar".toList, "https://exponentialview.substack.com/feed".toList, true⟩,
   ⟨"Cory Doctorow".toList, "https://pluralistic.net/feed/".toList, true⟩,
   ⟨"Jakob Nielsen".toList, "https://jakobnielsenphd.substack.com/feed".toList, true⟩,
   ⟨"Ed Zitron".toList, "https://www.wheresyoured.at/feed".toList, true⟩,
   ⟨"Maggie Appleton".toList, "https://maggieappleton.com/rss.xml".toList, true⟩,
   ⟨"Simon Willison".toList, "https://simonwillison.net/atom/entries/".toList, true⟩]

/-! ## Python string primitives -/

/-- Worker for Python `s.replace(pat, rep)`: scans left to right; at skip
state `0` it tests for a match of `pat` (emitting `rep` and entering a skip
of the remaining `pat.length - 1` matched characters), at skip state `k + 1`
it consumes one matched character.  Structural recursion on the scanned
string, so that concrete runs reduce in the kernel. -/
def replaceAux (pat rep : Str) : Str → Nat → Str
  | [], _ => []
  | c :: rest, 0 =>
    if pat ≠ [] ∧ pat.isPrefixOf (c :: rest) then
      rep ++ replaceAux pat rep rest (pat.length - 1)
    else
      c :: replaceAux pat rep rest 0
  | _ :: rest, k + 1 => replaceAux pat rep rest k

/-- Python `s.replace(pat, rep)` for a non-empty pattern: replaces every
occurrence, scanning left to right, non-overlapping.  (The source never calls
`replace` with an empty pattern; for an empty pattern this function is the
identity.) -/
def replaceL (pat rep s : Str) : Str := replaceAux pat rep s 0

/-- Python `str.isspace` characters relevant to `.strip()`. -/
def isPySpace (c : Char) : Bool :=
  c = ' ' ∨ c = '\t' ∨ c = '\n' ∨ c = '\r' ∨ c = '\x0b' ∨ c = '\x0c'

/-- Python `s.strip()` (whitespace from both ends). -/
def pyStrip (l : Str) : Str :=
  ((l.dropWhile isPySpace).reverse.dropWhile isPySpace).reverse

/-- Python `s.strip(chars)` for a single stripping character. -/
def pyStripChar (c : Char) (l : Str) : Str :=
  ((l.dropWhile (· = c)).reverse.dropWhile (· = c)).reverse

/-- Worker for Python `s.split(sep)` (non-empty separator), with the same
skip-state scheme as `replaceAux` and the current chunk accumulated in
reverse. -/
def pySplitAux (sep : Str) : Str → Nat → Str → List Str
  | [], _, cur => [cur.reverse]
  | c :: rest, 0, cur =>
    if sep ≠ [] ∧ sep.isPrefixOf (c :: rest) then
      cur.reverse :: pySplitAux sep rest (sep.length - 1) []
    else
      pySplitAux sep rest 0 (c :: cur)
  | _ :: rest, k + 1, cur => pySplitAux sep rest k cur

/-- Python `s.split(sep)` (non-empty separator). -/
def pySplit (sep l : Str) : List Str := pySplitAux sep l 0 []

/-- Python `xs[-1]` on a non-empty list, with a default for `[]` (Python
`split` never returns an empty list, so the default is unreachable). -/
def lastD (xs : List Str) : Str := xs.getLast?.getD []

/-- Python's substring operator `needle in hay`. -/
def pyIn (needle : Str) : Str → Bool
  | [] => needle.isPrefixOf []
  | c :: rest => needle.isPrefixOf (c :: rest) || pyIn needle rest

/-- Python `(title + " " + abstract).lower()` — `str.lower` applied
characterwise. -/
def lowerConcat (title abstract : Str) : Str :=
  (title ++ ' ' :: abstract).map Char.toLower

/-! ## `clean_llm_output` (source lines 85–91) -/

/-- The recognized section-label phrases of `clean_llm_output`. -/
def cleanKeywords : List Str :=
  ["Agency Implication:", "Buzz Check:", "Themes:", "The Debate:",
   "The Concept:"].map String.toList

/-- `clean_llm_output` (source lines 85–91): strips `**` and `###` markup,
wraps each recognized section label in `<b>…</b>`, and turns newlines into
`<br>`.  The replacements are applied in the source's order, each with Python
`str.replace` semantics. -/
def clean_llm_output (text : Str) : Str :=
  if text = [] then []
  else
    let t1 := replaceL "**".toList [] text
    let t2 := replaceL "### ".toList [] t1
    let t3 := replaceL "###".toList [] t2
    let t4 := cleanKeywords.foldl
      (fun acc k => replaceL k ("<b>".toList ++ k ++ "</b>".toList) acc) t3
    replaceL "\n".toList "<br>".toList t4

/-! ## Seen-Set store (source lines 95–108) -/

/-- A Python/JSON value, as produced by `json.load`. -/
inductive JsonVal where
  | null : JsonVal
  | bool (b : Bool) : JsonVal
  | num (n : Int) : JsonVal
  | str (s : Str) : JsonVal
  | arr (xs : List JsonVal) : JsonVal
  | obj (fields : List (Str × JsonVal)) : JsonVal

/-- Python `dict.get(key, default)` on a JSON object's field list. -/
def jsonGetD (fields : List (Str × JsonVal)) (key : Str) (dflt : JsonVal) : JsonVal :=
  match fields.find? (fun p => p.1 = key) with
  | some p => p.2
  | none => dflt

/-- The state of the seen-store file: `none` = file absent;
`some none` = file present but `json.load` raises `JSONDecodeError`;
`some (some j)` = file parses to the JSON value `j`. -/
abbrev SeenFile := Option (Option JsonVal)

/-- `get_seen_ids` (source lines 95–101).  Returns the parsed
`seen_ids` field.  The source catches only `json.JSONDecodeError`; a file
holding valid JSON that is not an object makes the Python `.get` attribute
access raise, modelled by `Except.error`. -/
def get_seen_ids : SeenFile → Except Unit JsonVal
  | none => .ok (.arr [])
  | some none => .ok (.arr [])
  | some (some j) =>
    match j with
    | .obj fields => .ok (jsonGetD fields "seen_ids".toList (.arr []))
    | _ => .error ()

/-- The persisted record written by `save_seen_id`
(`{"seen_ids": …, "last_updated": …}`), with the wall-clock timestamp
modelled as a `Nat`. -/
structure SeenStore where
  seen_ids : List Str
  last_updated : Nat
deriving DecidableEq, Repr

/-- `save_seen_id` (source lines 103–108): appends `article_id` to the
in-memory list when absent, then synchronously rewrites the whole backing
record with the updated list and a fresh timestamp.  Returns the updated
in-memory list together with the record written to disk. -/
def save_seen_id (article_id : Str) (seen_ids : List Str) (now : Nat) :
    List Str × SeenStore :=
  let l := if article_id ∈ seen_ids then seen_ids else seen_ids ++ [article_id]
  (l, ⟨l, now⟩)

/-! ## Relevance classifier (source lines 110–116) -/

/-- `is_relevant` (source lines 110–116): lower-cased concatenation of title,
a space and abstract; any block-list substring rejects, else any allow-list
substring accepts, else reject. -/
def is_relevant (title abstract : Str) : Bool :=
  let text := lowerConcat title abstract
  if negative_keywords.any (fun w => pyIn w text) then false
  else if positive_keywords.any (fun w => pyIn w text) then true
  else false

/-! ## Candidate items and the source collectors -/

/-- The candidate-item dict built by the collectors.  The source uses a
duck-typed dict; `body` stands for the `raw_text` field of the Reddit and
expert collectors and the `abstract` field of the JMIR and arXiv collectors. -/
structure Item where
  source : Str
  id : Str
  title : Str
  url : Str
  body : Str
deriving DecidableEq, Repr

/-- A feed entry as seen by the JMIR and arXiv collectors (the source reads
`entry.id`, `entry.title`, `entry.summary`, `entry.link` unconditionally;
a missing attribute raises inside the collector's `try`, which the oracle's
`Except.error` case subsumes). -/
structure FeedEntry where
  eid : Str
  title : Str
  summary : Str
  link : Str
deriving DecidableEq, Repr

/-- A feed entry as seen by `fetch_expert_insights`, which probes `id` and
`summary` for presence (`'id' in latest`, `'summary' in latest`). -/
structure ExpertEntry where
  eid : Option Str
  title : Str
  summary : Option Str
  link : Str
deriving DecidableEq, Repr

/-- A Reddit feed entry as seen by `fetch_reddit_buzz`. -/
structure RedditEntry where
  eid : Str
  title : Str
  link : Str
deriving DecidableEq, Repr

/-- The id transform of `fetch_jmir_articles`:
`entry.id.strip("/").split("/")[-1]`. -/
def jmirId (eid : Str) : Str :=
  lastD (pySplit "/".toList (pyStripChar '/' eid))

/-- The id transform of `fetch_arxiv_articles`:
`entry.id.split('/abs/')[-1].split('v')[0]`. -/
def arxivId (eid : Str) : Str :=
  (lastD (pySplit "/abs/".toList eid)).takeWhile (· ≠ 'v')

/-- `fetch_jmir_articles` (source lines 285–299).  The oracle is the outcome
of fetching and parsing the feed (`Except.error` = any exception inside the
`try`); the trailing `except` clause returns `[]`. -/
def fetch_jmir_articles (oracle : Except Unit (List FeedEntry)) :
    Except Unit (List Item) :=
  match oracle.map (fun entries =>
      ((entries.take scan_depth).filter
        (fun e => is_relevant e.title e.summary)).map
        (fun e => Item.mk "JMIR AI".toList (jmirId e.eid) e.title e.link e.summary)) with
  | .error _ => .ok []
  | .ok r => .ok r

/-- `fetch_arxiv_articles` (source lines 301–317).  Same `try`/`except`
shape as the JMIR collector; titles and abstracts have newlines replaced by
spaces. -/
def fetch_arxiv_articles (oracle : Except Unit (List FeedEntry)) :
    Except Unit (List Item) :=
  match oracle.map (fun entries =>
      (entries.filter (fun e => is_relevant e.title e.summary)).map
        (fun e => Item.mk "arXiv".toList (arxivId e.eid)
          (replaceL "\n".toList " ".toList e.title) e.link
          (replaceL "\n".toList " ".toList e.summary))) with
  | .error _ => .ok []
  | .ok r => .ok r

/-- `fetch_expert_insights` (source lines 223–255).  The oracle maps a feed
URL to the outcome of fetching and parsing it; a raised exception
(`Except.error`) or an empty entry list skips that expert (`continue`). -/
def fetch_expert_insights (oracle : Str → Except Unit (List ExpertEntry)) :
    Except Unit (List Item) :=
  .ok (expert_feeds.foldl (fun results expert =>
    match oracle expert.url with
    | .error _ => results
    | .ok [] => results
    | .ok (latest :: _) =>
      let clean_id := latest.eid.getD latest.link
      let summary_text := (latest.summary.map (List.take 2500)).getD latest.title
      if expert.filtered ∧
          ¬ expert_ai_keywords.any
            (fun k => pyIn k (lowerConcat latest.title summary_text)) then
        results
      else
        results ++ [Item.mk ("Expert Voice: ".toList ++ expert.name) clean_id
          latest.title latest.link summary_text]) [])

/-- The inner entry loop of `fetch_reddit_buzz` (source lines 202–218):
walks the top-5 entries of one community, cleans titles, applies the
AI-keyword gate for general communities, and stops after 2 accepted
entries (`found_count >= 2` breaks). -/
def redditEntriesLoop (sub : Str) : List RedditEntry → Nat → List Item
  | [], _ => []
  | p :: rest, found_count =>
    let clean_title := pyStrip (replaceL "[D]".toList [] p.title)
    if sub ∈ reddit_general_subs ∧
        ¬ expert_ai_keywords.any
          (fun k => pyIn k (clean_title.map Char.toLower)) then
      redditEntriesLoop sub rest found_count
    else
      let item := Item.mk ("r/".toList ++ sub) p.eid clean_title p.link []
      if found_count + 1 ≥ 2 then [item]
      else item :: redditEntriesLoop sub rest (found_count + 1)

/-- The per-community body of `fetch_reddit_buzz` (one iteration of the
`for sub in all_targets` loop, source lines 192–219): fetch the community's
daily-top feed (`Except.error` = any raised exception, handled by the
`except: continue`), skip empty feeds, otherwise collect from the top-5
entries.  The second state component records the communities fetched — one
`urlopen` per configured community, recorded unconditionally because the
fetch is the first statement of the per-community `try` body. -/
def redditStep (oracle : Str → Except Unit (List RedditEntry))
    (acc : List Item × List Str) (sub : Str) : List Item × List Str :=
  match oracle sub with
  | .error _ => (acc.1, acc.2 ++ [sub])
  | .ok entries =>
    if entries = [] then (acc.1, acc.2 ++ [sub])
    else (acc.1 ++ redditEntriesLoop sub (entries.take 5) 0, acc.2 ++ [sub])

/-- `fetch_reddit_buzz` (source lines 187–221).  The oracle maps a community
name to the outcome of fetching its daily-top feed; the result carries the
(at most 3) returned candidates next to the list of communities fetched. -/
def fetch_reddit_buzz (oracle : Str → Except Unit (List RedditEntry)) :
    Except Unit (List Item × List Str) :=
  let folded := (reddit_tech_subs ++ reddit_general_subs).foldl
    (redditStep oracle) ([], [])
  .ok (folded.1.take 3, folded.2)

/-! ## Per-item summarizers (source lines 321–381) -/

/-- The fixed fallback text of the per-item summarizers. -/
def summaryFailed : Str := "Summary failed.".toList

/-- `summarize_article` (source lines 363–381) as a function of the outcome
of the generation call: `Except.error` models a raised exception,
`.ok none` a response whose `content` is Python `None` (whose `.strip()`
raises inside the `try`), `.ok (some s)` a response with text `s`. -/
def summarize_article (gen : Except Unit (Option Str)) : Str :=
  match gen with
  | .error _ => summaryFailed
  | .ok none => summaryFailed
  | .ok (some s) => clean_llm_output (pyStrip s)

/-- `summarize_expert_post` (source lines 321–333): identical `try`/fallback
shape to `summarize_article`. -/
def summarize_expert_post (gen : Except Unit (Option Str)) : Str :=
  match gen with
  | .error _ => summaryFailed
  | .ok none => summaryFailed
  | .ok (some s) => clean_llm_output (pyStrip s)

/-- `summarize_reddit_post` (source lines 335–361): identical `try`/fallback
shape to `summarize_article` (the fallback-prompt branch only changes the
prompt sent to the service, not the handling of its outcome). -/
def summarize_reddit_post (gen : Except Unit (Option Str)) : Str :=
  match gen with
  | .error _ => summaryFailed
  | .ok none => summaryFailed
  | .ok (some s) => clean_llm_output (pyStrip s)

/-! ## The orchestrator loop of `main` (source lines 392–424) -/

/-- The per-candidate loop of `main` (source lines 392–424).  `summarize`
abstracts step 2–3 of the loop body (deep fetch plus the per-source-type
summarizer); acceptance and persistence do not inspect its output.  The
result is `(new_finds` (each item paired with its summary)`, seen_ids,
trace)`, where `trace` records, in order, every `seen_ids` list written to
disk by `save_seen_id` — one write immediately after each accepted item,
before the next candidate is examined. -/
def mainLoop (cap : Nat) (summarize : Item → Str) :
    List Item → List Str → List (Item × Str) → List (List Str) →
    List (Item × Str) × List Str × List (List Str)
  | [], seen_ids, new_finds, trace => (new_finds, seen_ids, trace)
  | item :: rest, seen_ids, new_finds, trace =>
    if item.id ∈ seen_ids then mainLoop cap summarize rest seen_ids new_finds trace
    else if cap ≤ new_finds.length then (new_finds, seen_ids, trace)
    else
      let written := save_seen_id item.id seen_ids 0
      mainLoop cap summarize rest written.1
        (new_finds ++ [(item, summarize item)]) (trace ++ [written.2.seen_ids])

/-- `main` (source lines 385–424) up to report rendering: loads the seen
ids, concatenates the four collectors' outputs in the source's order, and
runs the per-candidate loop with the configured cap. -/
def main (summarize : Item → Str)
    (expert reddit jmir arxiv : List Item) (seen_ids : List Str) :
    List (Item × Str) × List Str × List (List Str) :=
  mainLoop max_email_items summarize (expert ++ reddit ++ jmir ++ arxiv)
    seen_ids [] []

/-! ## Occurrence predicates for the `clean_llm_output` theorems -/

/-- The first character is `#`. -/
def headHash : Str → Bool
  | [] => false
  | c :: _ => decide (c = '#')

/-- The string starts with `##`. -/
def startsHH : Str → Bool
  | [] => false
  | c :: rest => decide (c = '#') && headHash rest

/-- The string holds `###` as a contiguous substring. -/
def hasHHH : Str → Bool
  | [] => false
  | c :: rest => (decide (c = '#') && startsHH rest) || hasHHH rest

/-- The string holds a newline character. -/
def hasNewline : Str → Bool
  | [] => false
  | c :: rest => decide (c = '\n') || hasNewline rest

/-- Thirteen candidates with pairwise-distinct ids, exceeding the configured
cap of 12; used to exhibit the failure of run-twice idempotence. -/
def cex_items : List Item :=
  (["a", "b", "c", "d", "e", "f", "g", "h", "i", "j", "k", "l",
    "m"].map String.toList).map (fun s => Item.mk "arXiv".toList s s s s)

/-! ## Lemmas about the orchestrator loop -/

/-- Master decomposition of `mainLoop`: the run extends the accepted list by
some block `Δ` of newly accepted items, appends exactly their ids to the
seen list, and writes one snapshot per accepted item, the `k`-th snapshot
being the incoming seen list extended by the first `k + 1` new ids. -/
lemma mainLoop_delta (cap : Nat) (f : Item → Str) :
    ∀ (items : List Item) (seen : List Str) (acc : List (Item × Str))
      (tr : List (List Str)),
    ∃ Δ : List (Item × Str),
      mainLoop cap f items seen acc tr =
        (acc ++ Δ, seen ++ Δ.map (fun p => p.1.id),
          tr ++ (List.range Δ.length).map
            (fun k => seen ++ (Δ.map (fun p => p.1.id)).take (k + 1))) ∧
      ∀ p ∈ Δ, p.1 ∈ items ∧ p.1.id ∉ seen ∧ p.2 = f p.1 := by
  intro items
  induction items with
  | nil => intro seen acc tr; exact ⟨[], by simp [mainLoop], by simp⟩
  | cons i rest ih =>
    intro seen acc tr
    by_cases h1 : i.id ∈ seen
    · obtain ⟨Δ, heq, hmem⟩ := ih seen acc tr
      exact ⟨Δ, by simp [mainLoop, h1, heq],
        fun p hp => ⟨List.mem_cons_of_mem _ (hmem p hp).1,
          (hmem p hp).2.1, (hmem p hp).2.2⟩⟩
    · by_cases h2 : cap ≤ acc.length
      · exact ⟨[], by simp [mainLoop, h1, h2], by simp⟩
      · obtain ⟨Δ', heq, hmem⟩ :=
          ih (seen ++ [i.id]) (acc ++ [(i, f i)]) (tr ++ [seen ++ [i.id]])
        refine ⟨(i, f i) :: Δ', ?_, ?_⟩
        · have hl : mainLoop cap f (i :: rest) seen acc tr =
              mainLoop cap f rest (seen ++ [i.id]) (acc ++ [(i, f i)])
                (tr ++ [seen ++ [i.id]]) := by
            simp [mainLoop, h1, h2, save_seen_id]
          rw [hl, heq]
          refine Prod.ext ?_ (Prod.ext ?_ ?_) <;> simp only
          · simp
          · simp
          · simp only [List.length_cons, List.range_succ_eq_map, List.map_cons,
              List.map_map]
            simp [Function.comp, List.take_succ_cons, List.append_assoc]
        · intro p hp
          rcases List.mem_cons.mp hp with hpe | hpΔ
          · subst hpe; exact ⟨List.mem_cons_self _ _, h1, rfl⟩
          · refine ⟨List.mem_cons_of_mem _ (hmem p hpΔ).1, ?_, (hmem p hpΔ).2.2⟩
            intro hmem'
            exact (hmem p hpΔ).2.1 (List.mem_append_left _ hmem')

/-- Once the cap is reached, the loop changes nothing: remaining candidates
are neither accepted nor marked seen, and no further store write happens. -/
lemma mainLoop_stable (cap : Nat) (f : Item → Str) :
    ∀ (items : List Item) (seen : List Str) (acc : List (Item × Str))
      (tr : List (List Str)), cap ≤ acc.length →
    mainLoop cap f items seen acc tr = (acc, seen, tr) := by
  intro items
  induction items with
  | nil => intro seen acc tr _; simp [mainLoop]
  | cons i rest ih =>
    intro seen acc tr hcap
    by_cases h1 : i.id ∈ seen
    · simp [mainLoop, h1, ih seen acc tr hcap]
    · simp [mainLoop, h1, hcap]

/-- If every candidate's id is already seen, the loop is a no-op. -/
lemma mainLoop_all_seen (cap : Nat) (f : Item → Str) :
    ∀ (items : List Item) (seen : List Str) (acc : List (Item × Str))
      (tr : List (List Str)), (∀ i ∈ items, i.id ∈ seen) →
    mainLoop cap f items seen acc tr = (acc, seen, tr) := by
  intro items
  induction items with
  | nil => intro seen acc tr _; simp [mainLoop]
  | cons i rest ih =>
    intro seen acc tr hall
    have h1 : i.id ∈ seen := hall i (List.mem_cons_self _ _)
    simp [mainLoop, h1,
      ih seen acc tr (fun j hj => hall j (List.mem_cons_of_mem _ hj))]

/-- The accepted list never exceeds the cap. -/
lemma mainLoop_le_cap (cap : Nat) (f : Item → Str) :
    ∀ (items : List Item) (seen : List Str) (acc : List (Item × Str))
      (tr : List (List Str)), acc.length ≤ cap →
    (mainLoop cap f items seen acc tr).1.length ≤ cap := by
  intro items
  induction items with
  | nil => intro seen acc tr h; simpa [mainLoop] using h
  | cons i rest ih =>
    intro seen acc tr hacc
    by_cases h1 : i.id ∈ seen
    · simpa [mainLoop, h1] using ih seen acc tr hacc
    · by_cases h2 : cap ≤ acc.length
      · simpa [mainLoop, h1, h2] using Nat.le_antisymm hacc h2 ▸ le_refl cap
      · have : (acc ++ [(i, f i)]).length ≤ cap := by
          simp only [List.length_append, List.length_cons, List.length_nil]
          omega
        simpa [mainLoop, h1, h2, save_seen_id] using
          ih (seen ++ [i.id]) (acc ++ [(i, f i)]) (tr ++ [seen ++ [i.id]]) this

/-- With pairwise-distinct candidate ids and at least `cap - acc.length`
unseen candidates remaining, the loop fills the accepted list to exactly
`cap`. -/
lemma mainLoop_reaches_cap (cap : Nat) (f : Item → Str) :
    ∀ (items : List Item) (seen : List Str) (acc : List (Item × Str))
      (tr : List (List Str)),
    (items.map Item.id).Nodup → acc.length ≤ cap →
    cap ≤ acc.length + (items.filter (fun i => decide (i.id ∉ seen))).length →
    (mainLoop cap f items seen acc tr).1.length = cap := by
  intro items
  induction items with
  | nil =>
    intro seen acc tr _ hle hge
    simp only [List.filter_nil, List.length_nil] at hge
    simp only [mainLoop]
    omega
  | cons i rest ih =>
    intro seen acc tr hnd hle hge
    have hndrest : (rest.map Item.id).Nodup := (List.nodup_cons.mp hnd).2
    have hidrest : i.id ∉ rest.map Item.id := (List.nodup_cons.mp hnd).1
    by_cases h1 : i.id ∈ seen
    · have hfe : (i :: rest).filter (fun j => decide (j.id ∉ seen)) =
          rest.filter (fun j => decide (j.id ∉ seen)) := by
        simp [List.filter_cons, h1]
      rw [hfe] at hge
      simpa [mainLoop, h1] using ih seen acc tr hndrest hle hge
    · by_cases h2 : cap ≤ acc.length
      · have hr : mainLoop cap f (i :: rest) seen acc tr = (acc, seen, tr) := by
          simp [mainLoop, h1, h2]
        rw [hr]
        show acc.length = cap
        omega
      · have hfe : rest.filter (fun j => decide (j.id ∉ seen ++ [i.id])) =
            rest.filter (fun j => decide (j.id ∉ seen)) := by
          apply List.filter_congr
          intro j hj
          have hne : j.id ≠ i.id := by
            intro he
            exact hidrest (he ▸ List.mem_map_of_mem Item.id hj)
          simp [List.mem_append, hne]
        have hcount : (i :: rest).filter (fun j => decide (j.id ∉ seen)) =
            i :: rest.filter (fun j => decide (j.id ∉ seen)) := by
          simp [List.filter_cons, h1]
        rw [hcount] at hge
        simp only [List.length_cons] at hge
        have hle' : (acc ++ [(i, f i)]).length ≤ cap := by
          simp only [List.length_append, List.length_cons, List.length_nil]
          omega
        have hge' : cap ≤ (acc ++ [(i, f i)]).length +
            (rest.filter (fun j => decide (j.id ∉ seen ++ [i.id]))).length := by
          rw [hfe]
          simp only [List.length_append, List.length_cons, List.length_nil]
          omega
        simpa [mainLoop, h1, h2, save_seen_id] using
          ih (seen ++ [i.id]) (acc ++ [(i, f i)]) (tr ++ [seen ++ [i.id]])
            hndrest hle' hge'

/-- If the number of unseen candidates fits in the remaining budget, every
candidate's id ends up in the final seen list. -/
lemma mainLoop_covers (cap : Nat) (f : Item → Str) :
    ∀ (items : List Item) (seen : List Str) (acc : List (Item × Str))
      (tr : List (List Str)),
    (items.filter (fun i => decide (i.id ∉ seen))).length + acc.length ≤ cap →
    ∀ i ∈ items, i.id ∈ (mainLoop cap f items seen acc tr).2.1 := by
  intro items
  induction items with
  | nil => intro seen acc tr _ i hi; cases hi
  | cons i rest ih =>
    intro seen acc tr hbud j hj
    have hmono : ∀ x ∈ seen,
        x ∈ (mainLoop cap f (i :: rest) seen acc tr).2.1 := by
      obtain ⟨Δ, heq, -⟩ := mainLoop_delta cap f (i :: rest) seen acc tr
      rw [heq]
      intro x hx
      exact List.mem_append_left _ hx
    by_cases h1 : i.id ∈ seen
    · have hfe : (i :: rest).filter (fun j => decide (j.id ∉ seen)) =
          rest.filter (fun j => decide (j.id ∉ seen)) := by
        simp [List.filter_cons, h1]
      rw [hfe] at hbud
      rcases List.mem_cons.mp hj with he | hr
      · subst he
        exact hmono _ h1
      · have := ih seen acc tr hbud j hr
        simpa [mainLoop, h1] using this
    · have hcount : (i :: rest).filter (fun j => decide (j.id ∉ seen)) =
          i :: rest.filter (fun j => decide (j.id ∉ seen)) := by
        simp [List.filter_cons, h1]
      rw [hcount] at hbud
      simp only [List.length_cons] at hbud
      have h2 : ¬ cap ≤ acc.length := by omega
      have hunf : mainLoop cap f (i :: rest) seen acc tr =
          mainLoop cap f rest (seen ++ [i.id]) (acc ++ [(i, f i)])
            (tr ++ [seen ++ [i.id]]) := by
        simp [mainLoop, h1, h2, save_seen_id]
      have hsub : (rest.filter
          (fun j => decide (j.id ∉ seen ++ [i.id]))).length ≤
          (rest.filter (fun j => decide (j.id ∉ seen))).length := by
        apply List.Sublist.length_le
        apply List.monotone_filter_right
        intro a ha
        simp only [decide_eq_true_eq] at ha ⊢
        intro hmem
        exact ha (List.mem_append_left _ hmem)
      have hbud' : (rest.filter
          (fun j => decide (j.id ∉ seen ++ [i.id]))).length +
          (acc ++ [(i, f i)]).length ≤ cap := by
        simp only [List.length_append, List.length_cons, List.length_nil]
        omega
      rcases List.mem_cons.mp hj with he | hr
      · rw [he, hunf]
        obtain ⟨Δ, heq, -⟩ := mainLoop_delta cap f rest (seen ++ [i.id])
          (acc ++ [(i, f i)]) (tr ++ [seen ++ [i.id]])
        rw [heq]
        exact List.mem_append_left _ (List.mem_append_right _ (by simp))
      · rw [hunf]
        exact ih (seen ++ [i.id]) (acc ++ [(i, f i)])
          (tr ++ [seen ++ [i.id]]) hbud' j hr

/-- In-run dedup invariant: if the already-accepted ids are distinct and all
present in the seen list, the final accepted ids are distinct. -/
lemma mainLoop_nodup (cap : Nat) (f : Item → Str) :
    ∀ (items : List Item) (seen : List Str) (acc : List (Item × Str))
      (tr : List (List Str)),
    (acc.map (fun p => p.1.id)).Nodup →
    (∀ x ∈ acc.map (fun p => p.1.id), x ∈ seen) →
    ((mainLoop cap f items seen acc tr).1.map (fun p => p.1.id)).Nodup := by
  intro items
  induction items with
  | nil => intro seen acc tr hnd _; simpa [mainLoop] using hnd
  | cons i rest ih =>
    intro seen acc tr hnd hsub
    by_cases h1 : i.id ∈ seen
    · simpa [mainLoop, h1] using ih seen acc tr hnd hsub
    · by_cases h2 : cap ≤ acc.length
      · simpa [mainLoop, h1, h2] using hnd
      · have hnd' : ((acc ++ [(i, f i)]).map (fun p => p.1.id)).Nodup := by
          simp only [List.map_append, List.map_cons, List.map_nil]
          refine List.Nodup.append hnd (by simp) ?_
          intro x hx hy
          simp only [List.mem_cons, List.not_mem_nil, or_false] at hy
          subst hy
          exact h1 (hsub _ hx)
        have hsub' : ∀ x ∈ (acc ++ [(i, f i)]).map (fun p => p.1.id),
            x ∈ seen ++ [i.id] := by
          intro x hx
          simp only [List.map_append, List.map_cons, List.map_nil,
            List.mem_append, List.mem_cons, List.not_mem_nil, or_false] at hx
          rcases hx with hx | hx
          · exact List.mem_append_left _ (hsub x hx)
          · subst hx; exact List.mem_append_right _ (by simp)
        simpa [mainLoop, h1, h2, save_seen_id] using
          ih (seen ++ [i.id]) (acc ++ [(i, f i)]) (tr ++ [seen ++ [i.id]])
            hnd' hsub'

/-- Acceptance, the seen list and the write trace do not depend on the
summarizer: two runs with different summarizers accept the same items in
the same order and perform the same writes. -/
lemma mainLoop_summ_indep (cap : Nat) (f g : Item → Str) :
    ∀ (items : List Item) (seen : List Str)
      (acc₁ acc₂ : List (Item × Str)) (tr : List (List Str)),
    acc₁.map Prod.fst = acc₂.map Prod.fst →
    (mainLoop cap f items seen acc₁ tr).1.map Prod.fst =
        (mainLoop cap g items seen acc₂ tr).1.map Prod.fst ∧
      (mainLoop cap f items seen acc₁ tr).2 =
        (mainLoop cap g items seen acc₂ tr).2 := by
  intro items
  induction items with
  | nil =>
    intro seen acc₁ acc₂ tr h
    constructor
    · simpa [mainLoop] using h
    · simp [mainLoop]
  | cons i rest ih =>
    intro seen acc₁ acc₂ tr h
    have hlen : acc₁.length = acc₂.length := by
      have := congrArg List.length h
      simpa using this
    by_cases h1 : i.id ∈ seen
    · simpa [mainLoop, h1] using ih seen acc₁ acc₂ tr h
    · by_cases h2 : cap ≤ acc₁.length
      · have h2' : cap ≤ acc₂.length := hlen ▸ h2
        constructor
        · simpa [mainLoop, h1, h2, h2'] using h
        · simp [mainLoop, h1, h2, h2']
      · have h2' : ¬ cap ≤ acc₂.length := hlen ▸ h2
        have h' : (acc₁ ++ [(i, f i)]).map Prod.fst =
            (acc₂ ++ [(i, g i)]).map Prod.fst := by
          simp [h]
        simpa [mainLoop, h1, h2, h2', save_seen_id] using
          ih (seen ++ [i.id]) (acc₁ ++ [(i, f i)]) (acc₂ ++ [(i, g i)])
            (tr ++ [seen ++ [i.id]]) h'

/-! ## Theorems -/

/-- C1: `is_relevant` decides over the lower-cased concatenation of title, a
space and abstract by substring matching with strict short-circuit order:
any block-list term rejects (absolute precedence over any allow-list terms
present), else any allow-list term accepts, else reject (default-deny). -/
theorem is_relevant_spec (title abstract : Str) :
    (∀ wn ∈ negative_keywords, ∀ wp ∈ positive_keywords,
      pyIn wn (lowerConcat title abstract) = true →
      pyIn wp (lowerConcat title abstract) = true →
      is_relevant title abstract = false) ∧
    ((∀ wn ∈ negative_keywords, pyIn wn (lowerConcat title abstract) = false) →
      (∃ wp ∈ positive_keywords, pyIn wp (lowerConcat title abstract) = true) →
      is_relevant title abstract = true) ∧
    ((∀ wn ∈ negative_keywords, pyIn wn (lowerConcat title abstract) = false) →
      (∀ wp ∈ positive_keywords, pyIn wp (lowerConcat title abstract) = false) →
      is_relevant title abstract = false) := by
  refine ⟨?_, ?_, ?_⟩
  · intro wn hwn wp _ h1 _
    have hneg : negative_keywords.any
        (fun w => pyIn w (lowerConcat title abstract)) = true :=
      List.any_eq_true.mpr ⟨wn, hwn, h1⟩
    simp [is_relevant, hneg]
  · intro hno ⟨wp, hwp, h2⟩
    have hneg : negative_keywords.any
        (fun w => pyIn w (lowerConcat title abstract)) = false :=
      List.any_eq_false.mpr (fun x hx => by simp [hno x hx])
    have hpos : positive_keywords.any
        (fun w => pyIn w (lowerConcat title abstract)) = true :=
      List.any_eq_true.mpr ⟨wp, hwp, h2⟩
    simp [is_relevant, hneg, hpos]
  · intro hno hnp
    have hneg : negative_keywords.any
        (fun w => pyIn w (lowerConcat title abstract)) = false :=
      List.any_eq_false.mpr (fun x hx => by simp [hno x hx])
    have hpos : positive_keywords.any
        (fun w => pyIn w (lowerConcat title abstract)) = false :=
      List.any_eq_false.mpr (fun x hx => by simp [hnp x hx])
    simp [is_relevant, hneg, hpos]

/-- Witness for C1: a text holding both the block-term `cancer` and the
allow-term `marketing` is rejected, a text holding only `marketing` is
accepted, and a text holding no configured term is rejected. -/
theorem is_relevant_spec_witness :
    is_relevant "cancer marketing".toList [] = false ∧
    is_relevant "marketing".toList [] = true ∧
    is_relevant "zzz".toList [] = false :=
  ⟨(is_relevant_spec "cancer marketing".toList []).1 "cancer".toList
      (by decide) "marketing".toList (by decide) (by decide) (by decide),
   (is_relevant_spec "marketing".toList []).2.1 (by decide)
      ⟨"marketing".toList, by decide, by decide⟩,
   (is_relevant_spec "zzz".toList []).2.2 (by decide) (by decide)⟩

/-- C2: with pairwise-distinct candidate ids and more unseen candidates than
the cap, the loop accepts exactly `cap` items, the seen list grows by
exactly `cap` entries, iteration is observationally stopped once the cap is
reached (nothing further is accepted, seen or written), and every unseen
candidate that was not accepted stays absent from the final seen list. -/
theorem cap_enforcement (cap : Nat) (f : Item → Str) (items : List Item)
    (seen : List Str) (hnd : (items.map Item.id).Nodup)
    (hcap : cap < (items.filter (fun i => decide (i.id ∉ seen))).length) :
    (mainLoop cap f items seen [] []).1.length = cap ∧
    (mainLoop cap f items seen [] []).2.1.length = seen.length + cap ∧
    (∀ (rest : List Item) (seen' : List Str) (acc : List (Item × Str))
        (tr : List (List Str)), cap ≤ acc.length →
      mainLoop cap f rest seen' acc tr = (acc, seen', tr)) ∧
    (∀ i ∈ items, i.id ∉ seen →
      i.id ∉ (mainLoop cap f items seen [] []).1.map (fun p => p.1.id) →
      i.id ∉ (mainLoop cap f items seen [] []).2.1) := by
  obtain ⟨Δ, heq, hmem⟩ := mainLoop_delta cap f items seen [] []
  have hlen : (mainLoop cap f items seen [] []).1.length = cap :=
    mainLoop_reaches_cap cap f items seen [] [] hnd (Nat.zero_le _) (by omega)
  have hΔlen : Δ.length = cap := by
    rw [heq] at hlen
    simpa using hlen
  refine ⟨hlen, ?_, fun rest seen' acc tr h =>
    mainLoop_stable cap f rest seen' acc tr h, ?_⟩
  · rw [heq]
    simp [hΔlen]
  · intro i _ hunseen hnotacc hmem'
    rw [heq] at hmem' hnotacc
    simp only [List.nil_append] at hmem' hnotacc
    rcases List.mem_append.mp hmem' with hs | hΔ
    · exact hunseen hs
    · exact hnotacc hΔ

/-- Witness for C2: with cap 1, two distinct unseen candidates, exactly one
item is accepted. -/
theorem cap_enforcement_witness :
    (([Item.mk [] ['a'] [] [] [], Item.mk [] ['b'] [] [] []].map
        Item.id).Nodup ∧
      1 < ([Item.mk [] ['a'] [] [] [], Item.mk [] ['b'] [] [] []].filter
        (fun i => decide (i.id ∉ ([] : List Str)))).length) ∧
    (mainLoop 1 (fun _ => [])
      [Item.mk [] ['a'] [] [] [], Item.mk [] ['b'] [] [] []]
      [] [] []).1.length = 1 :=
  ⟨⟨by decide, by decide⟩,
    (cap_enforcement 1 (fun _ => [])
      [Item.mk [] ['a'] [] [] [], Item.mk [] ['b'] [] [] []] []
      (by decide) (by decide)).1⟩

/-- C3 counterexample: against identical upstream content of 13 relevant
unseen candidates and the configured cap 12, the first run accepts 12 and
drops the 13th without marking it seen, so the second run accepts 1 item,
not zero. -/
theorem second_run_accepts_leftover :
    (main (fun _ => []) cex_items [] [] []
        (main (fun _ => []) cex_items [] [] [] []).2.1).1.length = 1 := by
  decide

/-- C3 (amended): provided the candidate stream holds at most `cap` unseen
candidates (so none is dropped by the cap), every accepted id is in the
final persisted seen list and a second run over the same stream accepts
nothing, writes nothing and leaves the seen list unchanged; candidates
dropped by the cap are the only ones that can resurface. -/
theorem idempotence_amended (cap : Nat) (f : Item → Str) (items : List Item)
    (seen : List Str)
    (hfit : (items.filter (fun i => decide (i.id ∉ seen))).length ≤ cap) :
    (∀ p ∈ (mainLoop cap f items seen [] []).1,
      p.1.id ∈ (mainLoop cap f items seen [] []).2.1) ∧
    mainLoop cap f items (mainLoop cap f items seen [] []).2.1 [] [] =
      ([], (mainLoop cap f items seen [] []).2.1, []) := by
  constructor
  · obtain ⟨Δ, heq, -⟩ := mainLoop_delta cap f items seen [] []
    intro p hp
    rw [heq] at hp ⊢
    simp only [List.nil_append] at hp ⊢
    exact List.mem_append_right _ (List.mem_map_of_mem _ hp)
  · refine mainLoop_all_seen cap f items _ [] [] ?_
    intro i hi
    exact mainLoop_covers cap f items seen [] [] (by simpa using hfit) i hi

/-- Witness for C3 (amended): one unseen candidate, cap 12; the second run
is a no-op. -/
theorem idempotence_amended_witness :
    ([Item.mk [] ['a'] [] [] []].filter
        (fun i => decide (i.id ∉ ([] : List Str)))).length ≤ 12 ∧
    mainLoop 12 (fun _ => []) [Item.mk [] ['a'] [] [] []]
        (mainLoop 12 (fun _ => []) [Item.mk [] ['a'] [] [] []]
          [] [] []).2.1 [] [] =
      ([], (mainLoop 12 (fun _ => []) [Item.mk [] ['a'] [] [] []]
          [] [] []).2.1, []) :=
  ⟨by decide,
    (idempotence_amended 12 (fun _ => []) [Item.mk [] ['a'] [] [] []] []
      (by decide)).2⟩

/-- C4: `save_seen_id` only ever appends (the written record's id list is
the input list or the input list extended by the new id), writes the full
in-memory list as one snapshot with the given fresh timestamp; along a run,
the loop writes one snapshot per accepted item — the `k`-th write being the
initial seen list plus the ids of the first `k + 1` accepted items, so the
write for item `i` is on disk before candidate `i + 1` is examined — and
successive snapshots extend each other (the persisted set never shrinks). -/
theorem seen_set_durability (cap : Nat) (f : Item → Str) (items : List Item)
    (seen : List Str) :
    (∀ (a : Str) (l : List Str) (t : Nat),
      ((save_seen_id a l t).1 = l ∨ (save_seen_id a l t).1 = l ++ [a]) ∧
      (save_seen_id a l t).2.seen_ids = (save_seen_id a l t).1 ∧
      (save_seen_id a l t).2.last_updated = t) ∧
    (mainLoop cap f items seen [] []).2.2 =
      (List.range (mainLoop cap f items seen [] []).1.length).map
        (fun k => seen ++
          ((mainLoop cap f items seen [] []).1.map
            (fun p => p.1.id)).take (k + 1)) ∧
    List.Chain' (fun u v => u <+: v) (mainLoop cap f items seen [] []).2.2 := by
  have htr : (mainLoop cap f items seen [] []).2.2 =
      (List.range (mainLoop cap f items seen [] []).1.length).map
        (fun k => seen ++
          ((mainLoop cap f items seen [] []).1.map
            (fun p => p.1.id)).take (k + 1)) := by
    obtain ⟨Δ, heq, -⟩ := mainLoop_delta cap f items seen [] []
    rw [heq]
    simp
  refine ⟨?_, htr, ?_⟩
  · intro a l t
    by_cases h : a ∈ l
    · exact ⟨Or.inl (by simp [save_seen_id, h]), by simp [save_seen_id], rfl⟩
    · exact ⟨Or.inr (by simp [save_seen_id, h]), by simp [save_seen_id], rfl⟩
  · rw [htr]
    apply List.chain'_iff_get.mpr
    intro i hi
    simp only [List.length_map, List.length_range] at hi
    simp only [List.get_eq_getElem, List.getElem_map, List.getElem_range]
    refine ⟨(((mainLoop cap f items seen [] []).1.map
      (fun p => p.1.id)).take (i + 1 + 1)).drop (i + 1), ?_⟩
    rw [List.append_assoc]
    congr 1
    calc ((mainLoop cap f items seen [] []).1.map
          (fun p => p.1.id)).take (i + 1) ++
          (((mainLoop cap f items seen [] []).1.map
            (fun p => p.1.id)).take (i + 1 + 1)).drop (i + 1)
        = (((mainLoop cap f items seen [] []).1.map
            (fun p => p.1.id)).take (i + 1 + 1)).take (i + 1) ++
          (((mainLoop cap f items seen [] []).1.map
            (fun p => p.1.id)).take (i + 1 + 1)).drop (i + 1) := by
          rw [List.take_take, inf_eq_left.mpr (by omega : i + 1 ≤ i + 1 + 1)]
      _ = ((mainLoop cap f items seen [] []).1.map
            (fun p => p.1.id)).take (i + 1 + 1) := List.take_append_drop _ _

/-- C6 counterexample: a generation call that returns the empty string makes
`summarize_article` return the empty string, not the fixed fallback text —
the fallback is produced only when the call raises (including a `None`
content). -/
theorem summarize_article_empty_passthrough :
    summarize_article (Except.ok (some [])) = [] ∧
    (summaryFailed == ([] : Str)) = false :=
  ⟨rfl, by decide⟩

/-- C6 (amended): when the generation call raises (or its content is `None`,
whose `.strip()` raises inside the `try`), each per-item summarizer returns
the fixed fallback string; an empty-string content instead passes through as
the empty string.  Either way the failure never propagates: acceptance, the
seen list and the write trace are identical for any two summarizers, and
each accepted item carries exactly its summarizer's output. -/
theorem enrichment_fallback_amended :
    summarize_article (Except.error ()) = summaryFailed ∧
    summarize_article (Except.ok none) = summaryFailed ∧
    summarize_expert_post (Except.error ()) = summaryFailed ∧
    summarize_reddit_post (Except.error ()) = summaryFailed ∧
    (∀ (cap : Nat) (f g : Item → Str) (items : List Item) (seen : List Str),
      (mainLoop cap f items seen [] []).1.map Prod.fst =
          (mainLoop cap g items seen [] []).1.map Prod.fst ∧
        (mainLoop cap f items seen [] []).2 =
          (mainLoop cap g items seen [] []).2) ∧
    (∀ (cap : Nat) (f : Item → Str) (items : List Item) (seen : List Str),
      (mainLoop cap f items seen [] []).1.map Prod.snd =
        (mainLoop cap f items seen [] []).1.map (fun p => f p.1)) := by
  refine ⟨rfl, rfl, rfl, rfl, ?_, ?_⟩
  · intro cap f g items seen
    exact mainLoop_summ_indep cap f g items seen [] [] [] rfl
  · intro cap f items seen
    obtain ⟨Δ, heq, hmem⟩ := mainLoop_delta cap f items seen [] []
    rw [heq]
    simp only [List.nil_append]
    exact List.map_congr_left (fun p hp => (hmem p hp).2.2)

/-- C10: within a single run, duplicate ids in the candidate stream cannot
be accepted twice: the ids of the accepted items are pairwise distinct, for
every candidate stream, because accepting an item appends its id to the same
in-memory seen list that the membership check consults. -/
theorem in_run_dedup (cap : Nat) (f : Item → Str) (items : List Item)
    (seen : List Str) :
    ((mainLoop cap f items seen [] []).1.map (fun p => p.1.id)).Nodup :=
  mainLoop_nodup cap f items seen [] [] (by simp) (by simp)

/-- C7: every collector handles every oracle behaviour — raised exception,
malformed/empty data — by returning normally with a (possibly empty) list;
no error propagates to the orchestrator. -/
theorem collectors_total :
    (∀ oracle, ∃ xs, fetch_expert_insights oracle = .ok xs) ∧
    (∀ oracle, ∃ x, fetch_reddit_buzz oracle = .ok x) ∧
    (∀ oracle, ∃ xs, fetch_jmir_articles oracle = .ok xs) ∧
    (∀ oracle, ∃ xs, fetch_arxiv_articles oracle = .ok xs) := by
  refine ⟨fun o => ⟨_, rfl⟩, fun o => ⟨_, rfl⟩, fun o => ?_, fun o => ?_⟩
  · cases o with
    | error e => exact ⟨[], rfl⟩
    | ok entries => exact ⟨_, rfl⟩
  · cases o with
    | error e => exact ⟨[], rfl⟩
    | ok entries => exact ⟨_, rfl⟩

/-- The fold of `fetch_reddit_buzz` records exactly the configured
communities, in configuration order, whatever the oracle does. -/
lemma redditStep_requested (oracle : Str → Except Unit (List RedditEntry)) :
    ∀ (subs : List Str) (acc : List Item) (req : List Str),
    (subs.foldl (redditStep oracle) (acc, req)).2 = req ++ subs := by
  intro subs
  induction subs with
  | nil => intro acc req; simp
  | cons sub rest ih =>
    intro acc req
    have hstep : ∃ y, redditStep oracle (acc, req) sub = (y, req ++ [sub]) := by
      unfold redditStep
      cases oracle sub with
      | error e => exact ⟨acc, rfl⟩
      | ok entries =>
        by_cases he : entries = []
        · exact ⟨acc, by simp [he]⟩
        · exact ⟨acc ++ redditEntriesLoop sub (entries.take 5) 0, by simp [he]⟩
    obtain ⟨y, hy⟩ := hstep
    simp only [List.foldl_cons, hy, ih]
    simp

/-- One community contributes at most 2 candidates (and at most 1 once one
entry has already been found). -/
lemma redditEntriesLoop_length (sub : Str) :
    ∀ (entries : List RedditEntry) (found_count : Nat),
    (redditEntriesLoop sub entries found_count).length ≤
      if found_count = 0 then 2 else 1 := by
  intro entries
  induction entries with
  | nil => intro fc; simp [redditEntriesLoop]
  | cons p rest ih =>
    intro fc
    simp only [redditEntriesLoop]
    split
    · exact ih fc
    · split
      · simp only [List.length_cons, List.length_nil]
        split <;> omega
      · next hlt =>
        have hfc : fc = 0 := by omega
        subst hfc
        have h1 := ih 1
        simp at h1
        simp only [List.length_cons, Nat.zero_add, if_true]
        omega

/-- C8 counterexample: with an oracle on which every fetch raises, the
collector still requests every one of the 7 configured communities, in
configuration order — it deterministically queries all of them on every
run, there is no sampling of a subset. -/
theorem reddit_queries_every_community :
    fetch_reddit_buzz (fun _ => .error ()) =
      .ok ([], ["ArtificialIntelligence", "MachineLearning", "ChatGPT",
        "OpenAI", "marketing", "advertising",
        "AgencyLife"].map String.toList) := rfl

/-- C8 (amended): on every run the discussion-board collector
deterministically queries every configured community, in configuration
order (no sampling); it returns at most 3 candidates overall, and the
per-community entry loop accepts at most 2 entries out of that community's
top-5 daily entries. -/
theorem fetch_reddit_buzz_amended :
    (∀ oracle, ∃ cands : List Item,
      fetch_reddit_buzz oracle =
        .ok (cands, reddit_tech_subs ++ reddit_general_subs) ∧
      cands.length ≤ 3) ∧
    (∀ (sub : Str) (entries : List RedditEntry),
      (redditEntriesLoop sub entries 0).length ≤ 2) := by
  constructor
  · intro oracle
    refine ⟨((reddit_tech_subs ++ reddit_general_subs).foldl
      (redditStep oracle) ([], [])).1.take 3, ?_, ?_⟩
    · have hdef : fetch_reddit_buzz oracle =
          .ok (((reddit_tech_subs ++ reddit_general_subs).foldl
              (redditStep oracle) ([], [])).1.take 3,
            ((reddit_tech_subs ++ reddit_general_subs).foldl
              (redditStep oracle) ([], [])).2) := rfl
      rw [hdef, redditStep_requested oracle _ [] []]
      simp
    · rw [List.length_take]
      exact Nat.min_le_left _ _
  · intro sub entries
    simpa using redditEntriesLoop_length sub entries 0

/-- C5 counterexample: a backing file holding valid JSON that is not an
object — here the JSON array `[]` — makes `get_seen_ids` raise (the Python
`.get` attribute access fails; only `json.JSONDecodeError` is caught), so
"for arbitrary contents … it never raises an error" is false. -/
theorem get_seen_ids_raises_on_nonobject :
    get_seen_ids (some (some (.arr []))) = .error () := rfl

/-- C5 (amended): `get_seen_ids` returns the empty list when the file is
absent or its contents fail JSON parsing, and returns normally whenever the
parsed contents are a JSON object; only parseable non-object contents
raise. -/
theorem get_seen_ids_amended :
    get_seen_ids none = .ok (.arr []) ∧
    get_seen_ids (some none) = .ok (.arr []) ∧
    ∀ fields, ∃ v, get_seen_ids (some (some (.obj fields))) = .ok v :=
  ⟨rfl, rfl, fun _ => ⟨_, rfl⟩⟩

/-! ## Lemmas about `clean_llm_output` -/

/-- `headHash` characterization. -/
lemma headHash_true : ∀ {v : Str}, headHash v = true ↔ ∃ v', v = '#' :: v'
  | [] => by simp [headHash]
  | c :: r => by
    simp only [headHash, decide_eq_true_eq]
    constructor
    · intro h; exact ⟨r, by rw [h]⟩
    · rintro ⟨v', hv⟩
      simp only [List.cons.injEq] at hv
      exact hv.1

/-- `startsHH` characterization. -/
lemma startsHH_true : ∀ {v : Str}, startsHH v = true ↔ ∃ v', v = '#' :: '#' :: v'
  | [] => by simp [startsHH]
  | c :: r => by
    simp only [startsHH, Bool.and_eq_true, decide_eq_true_eq, headHash_true]
    constructor
    · rintro ⟨hc, v', hv⟩
      exact ⟨v', by rw [hc, hv]⟩
    · rintro ⟨v', hv⟩
      simp only [List.cons.injEq] at hv
      exact ⟨hv.1, v', hv.2⟩

/-- `hasHHH` detects exactly the presence of a contiguous `###` substring. -/
lemma hasHHH_iff : ∀ l : Str, hasHHH l = true ↔
    ∃ pre post : Str, l = pre ++ '#' :: '#' :: '#' :: post := by
  intro l
  induction l with
  | nil => simp [hasHHH]
  | cons c rest ih =>
    simp only [hasHHH, Bool.or_eq_true, Bool.and_eq_true, decide_eq_true_eq,
      startsHH_true, ih]
    constructor
    · rintro (⟨hc, v', hv⟩ | ⟨pre, post, hp⟩)
      · exact ⟨[], v', by rw [hc, hv]; rfl⟩
      · exact ⟨c :: pre, post, by rw [hp]; rfl⟩
    · rintro ⟨pre, post, hp⟩
      cases pre with
      | nil =>
        left
        simp only [List.nil_append, List.cons.injEq] at hp
        exact ⟨hp.1, post, hp.2⟩
      | cons a pre' =>
        right
        simp only [List.cons_append, List.cons.injEq] at hp
        exact ⟨pre', post, hp.2⟩

/-- Dropping the head preserves absence of `###`. -/
lemma hasHHH_tail {c : Char} {l : Str} (h : hasHHH (c :: l) = false) :
    hasHHH l = false := by
  cases hl : hasHHH l with
  | false => rfl
  | true =>
    rw [hasHHH, hl, Bool.or_true] at h
    exact absurd h (by simp)

/-- Prepending a `#`-free block preserves absence of `###`. -/
lemma hasHHH_append_left (X : Str) (hX : hasHHH X = false) :
    ∀ rep : Str, '#' ∉ rep → hasHHH (rep ++ X) = false := by
  intro rep
  induction rep with
  | nil => intro _; simpa using hX
  | cons c r ih =>
    intro hrep
    have hc : ¬ c = '#' := by
      intro h; subst h; exact hrep (List.mem_cons_self _ _)
    have h2 := ih (fun h => hrep (List.mem_cons_of_mem _ h))
    simp only [List.cons_append, hasHHH, h2, Bool.or_false]
    simp [hc, h2]

/-- A scan step at state 0 with a `#`-free, non-empty replacement keeps the
head `#`-free. -/
lemma headHash_replaceAux (pat rep : Str) (hrep0 : rep ≠ [])
    (hrep : '#' ∉ rep) :
    ∀ w : Str, headHash w = false → headHash (replaceAux pat rep w 0) = false := by
  intro w hw
  cases w with
  | nil => simp [replaceAux, headHash]
  | cons d v =>
    have hd : ¬ d = '#' := by simpa [headHash] using hw
    by_cases hm : pat ≠ [] ∧ pat.isPrefixOf (d :: v)
    · simp only [replaceAux, if_pos hm]
      cases rep with
      | nil => exact absurd rfl hrep0
      | cons r rs =>
        have hr : ¬ r = '#' := by
          intro h; subst h; exact hrep (List.mem_cons_self _ _)
        simp [headHash, hr]
    · simp only [replaceAux, if_neg hm]
      simp [headHash, hd]

/-- A scan at state 0 with a `#`-free, non-empty replacement cannot create a
leading `##`. -/
lemma startsHH_replaceAux (pat rep : Str) (hrep0 : rep ≠ [])
    (hrep : '#' ∉ rep) :
    ∀ v : Str, startsHH v = false →
    startsHH (replaceAux pat rep v 0) = false := by
  intro v hv
  cases v with
  | nil => simp [replaceAux, startsHH]
  | cons e v2 =>
    by_cases hm : pat ≠ [] ∧ pat.isPrefixOf (e :: v2)
    · simp only [replaceAux, if_pos hm]
      cases rep with
      | nil => exact absurd rfl hrep0
      | cons r rs =>
        have hr : ¬ r = '#' := by
          intro h; subst h; exact hrep (List.mem_cons_self _ _)
        simp [startsHH, hr]
    · simp only [replaceAux, if_neg hm]
      by_cases he : e = '#'
      · subst he
        have hh : headHash v2 = false := by simpa [startsHH] using hv
        simp [startsHH, headHash_replaceAux pat rep hrep0 hrep v2 hh]
      · simp [startsHH, he]

/-- Replacing with a `#`-free, non-empty block preserves absence of `###`
(the source's section-label and newline replacements). -/
lemma hasHHH_replaceAux (pat rep : Str) (hrep0 : rep ≠ [])
    (hrep : '#' ∉ rep) :
    ∀ (w : Str) (k : Nat), hasHHH w = false →
    hasHHH (replaceAux pat rep w k) = false := by
  intro w
  induction w with
  | nil => intro k _; cases k <;> simp [replaceAux, hasHHH]
  | cons c rest ih =>
    intro k hw
    have hrest : hasHHH rest = false := hasHHH_tail hw
    cases k with
    | zero =>
      by_cases hm : pat ≠ [] ∧ pat.isPrefixOf (c :: rest)
      · simp only [replaceAux, if_pos hm]
        exact hasHHH_append_left _ (ih _ hrest) rep hrep
      · simp only [replaceAux, if_neg hm]
        by_cases hc : c = '#'
        · subst hc
          have hs : startsHH rest = false := by
            cases hst : startsHH rest with
            | false => rfl
            | true =>
              rw [hasHHH, hst] at hw
              simp at hw
          simp [hasHHH, ih 0 hrest,
            startsHH_replaceAux pat rep hrep0 hrep rest hs]
        · simp [hasHHH, hc, ih 0 hrest]
    | succ k' => simpa [replaceAux] using ih k' hrest

/-- The `###`-removal scan step at state 0 keeps the head `#`-free. -/
lemma headHash_replace3 :
    ∀ w : Str, headHash w = false →
    headHash (replaceAux ['#', '#', '#'] [] w 0) = false := by
  intro w hw
  cases w with
  | nil => simp [replaceAux, headHash]
  | cons d v =>
    have hd : ¬ d = '#' := by simpa [headHash] using hw
    have hm : ¬ ((['#', '#', '#'] : Str) ≠ [] ∧
        List.isPrefixOf ['#', '#', '#'] (d :: v)) := by
      rintro ⟨-, hpre⟩
      simp only [List.isPrefixOf, Bool.and_eq_true, beq_iff_eq] at hpre
      exact hd hpre.1.symm
    simp only [replaceAux, if_neg hm]
    simp [headHash, hd]

/-- The `###`-removal cannot leave a leading `##` when the input had none. -/
lemma startsHH_replace3 :
    ∀ v : Str, startsHH v = false →
    startsHH (replaceAux ['#', '#', '#'] [] v 0) = false := by
  intro v hv
  cases v with
  | nil => simp [replaceAux, startsHH]
  | cons e v2 =>
    by_cases hm : (['#', '#', '#'] : Str) ≠ [] ∧
        List.isPrefixOf ['#', '#', '#'] (e :: v2)
    · exfalso
      obtain ⟨-, hpre⟩ := hm
      simp only [List.isPrefixOf, Bool.and_eq_true, beq_iff_eq] at hpre
      obtain ⟨he, hpre2⟩ := hpre
      cases v2 with
      | nil => simp [List.isPrefixOf] at hpre2
      | cons f v3 =>
        simp only [List.isPrefixOf, Bool.and_eq_true, beq_iff_eq] at hpre2
        rw [startsHH, ← he, ← hpre2.1] at hv
        simp [headHash] at hv
    · simp only [replaceAux, if_neg hm]
      by_cases he : e = '#'
      · subst he
        have hh : headHash v2 = false := by simpa [startsHH] using hv
        simp [startsHH, headHash_replace3 v2 hh]
      · simp [startsHH, he]

/-- The `###`-removal pass leaves no `###` substring, for every input and
scan state. -/
lemma hasHHH_replace3 :
    ∀ (w : Str) (k : Nat), hasHHH (replaceAux ['#', '#', '#'] [] w k) = false := by
  intro w
  induction w with
  | nil => intro k; cases k <;> simp [replaceAux, hasHHH]
  | cons c rest ih =>
    intro k
    cases k with
    | zero =>
      by_cases hm : (['#', '#', '#'] : Str) ≠ [] ∧
          List.isPrefixOf ['#', '#', '#'] (c :: rest)
      · simp only [replaceAux, if_pos hm]
        simpa using ih 2
      · simp only [replaceAux, if_neg hm]
        by_cases hc : c = '#'
        · subst hc
          have hs : startsHH rest = false := by
            cases hst : startsHH rest with
            | false => rfl
            | true =>
              obtain ⟨v', hv⟩ := startsHH_true.mp hst
              subst hv
              exact absurd ⟨by simp, by simp [List.isPrefixOf]⟩ hm
          simp [hasHHH, ih 0, startsHH_replace3 rest hs]
        · simp [hasHHH, hc, ih 0]
    | succ k' => simpa [replaceAux] using ih k'

/-- The section-label folds preserve absence of `###`: each replacement block
`<b>…</b>` around a `#`-free label is `#`-free and non-empty. -/
lemma hasHHH_foldl_keywords :
    ∀ ks : List Str, (∀ k ∈ ks, '#' ∉ k) →
    ∀ acc : Str, hasHHH acc = false →
    hasHHH (ks.foldl
      (fun a k => replaceL k ("<b>".toList ++ k ++ "</b>".toList) a) acc) =
      false := by
  intro ks
  induction ks with
  | nil => intro _ acc h; simpa using h
  | cons k rest ih =>
    intro hks acc h
    simp only [List.foldl_cons]
    apply ih (fun j hj => hks j (List.mem_cons_of_mem _ hj))
    apply hasHHH_replaceAux k _ ?_ ?_ acc 0 h
    · rw [show "<b>".toList = ['<', 'b', '>'] from rfl]
      simp
    · intro hmem
      rcases List.mem_append.mp hmem with h12 | h3
      · rcases List.mem_append.mp h12 with h1 | h2
        · rw [show "<b>".toList = ['<', 'b', '>'] from rfl] at h1
          simp at h1
        · exact (hks k (List.mem_cons_self _ _)) h2
      · rw [show "</b>".toList = ['<', '/', 'b', '>'] from rfl] at h3
        simp at h3

/-- `hasNewline` splits over append. -/
lemma hasNewline_append (a b : Str) :
    hasNewline (a ++ b) = (hasNewline a || hasNewline b) := by
  induction a with
  | nil => simp [hasNewline]
  | cons c r ih => simp [hasNewline, ih, Bool.or_assoc]

/-- The final newline pass leaves no newline, for every input and scan
state. -/
lemma hasNewline_nl_pass :
    ∀ (w : Str) (k : Nat),
    hasNewline (replaceAux ['\n'] "<br>".toList w k) = false := by
  intro w
  induction w with
  | nil => intro k; cases k <;> simp [replaceAux, hasNewline]
  | cons c rest ih =>
    intro k
    cases k with
    | zero =>
      by_cases hm : (['\n'] : Str) ≠ [] ∧ List.isPrefixOf ['\n'] (c :: rest)
      · simp only [replaceAux, if_pos hm]
        rw [hasNewline_append,
          show hasNewline "<br>".toList = false from by decide]
        simpa using ih 0
      · simp only [replaceAux, if_neg hm]
        have hc : ¬ c = '\n' := by
          intro h; subst h
          exact hm ⟨by simp, by simp [List.isPrefixOf]⟩
        show (decide (c = '\n') ||
          hasNewline (replaceAux ['\n'] "<br>".toList rest 0)) = false
        rw [ih 0]
        simp [hc]
    | succ k' => simpa [replaceAux] using ih k'

/-- C9 counterexample: `clean_llm_output` applied to `"*###*"` returns
`"**"` — removing the `###` joins the surrounding asterisks into exactly the
`**` markup the function is meant to eliminate, so "the output contains no
occurrence of `**`" is false. -/
theorem clean_llm_output_emits_bold_markup :
    clean_llm_output "*###*".toList = "**".toList := by decide

/-- C9 (amended): `clean_llm_output` is the source's fixed pipeline of
Python `replace` calls; for every input the output holds no `###` substring
and no newline (newlines all become `<br>`), and each `**` present before
the `**`-removal pass is removed — but the later `### `/`###` removals can
join adjacent characters into a fresh `**` (see the counterexample), so only
the `###`- and newline-freedom guarantees hold unconditionally. -/
theorem clean_llm_output_amended (s : Str) :
    hasHHH (clean_llm_output s) = false ∧
    hasNewline (clean_llm_output s) = false := by
  by_cases hs : s = []
  · subst hs
    exact ⟨rfl, rfl⟩
  · have hdef : clean_llm_output s =
        replaceL "\n".toList "<br>".toList (cleanKeywords.foldl
          (fun acc k => replaceL k ("<b>".toList ++ k ++ "</b>".toList) acc)
          (replaceL "###".toList []
            (replaceL "### ".toList [] (replaceL "**".toList [] s)))) := by
      simp [clean_llm_output, hs]
    rw [hdef]
    constructor
    · apply hasHHH_replaceAux _ _ (by decide) (by decide)
      apply hasHHH_foldl_keywords cleanKeywords (by decide)
      exact hasHHH_replace3 _ 0
    · exact hasNewline_nl_pass _ 0

end AiArticleScanner
